import Mathlib

/-!
Verification of the RiskSim Monte Carlo risk-and-return engine.

This file shallowly embeds the algorithmic core of the repository in Lean 4:

* `src/utils/risk_simulation.py` — the `TradingSimulator` class
  (`simulate_trade`, `simulate_year`) and the free function
  `simulate_drawdown` with its inner helper `_max_consecutive_losses`;
* `src/pages/2_asset_correlation.py` — the correlation-matrix construction
  and repair (`is_positive_definite`, `nearest_positive_definite`), the
  correlated price-path construction (`prices`, `portfolio`), the
  performance-metric computation (`calculate_metrics`), and the module-level
  control flow around the `min_corr > max_corr` validation.

Machine floats are modelled by exact arithmetic: `ℚ` where the code only
adds, multiplies and divides (so every witness evaluates by `decide`), and
`ℝ` where the code takes roots, powers or eigenvalues.  The IEEE-754
special values that the metric computations can produce are modelled
explicitly by the carrier `FpVal` (finite / +inf / -inf / NaN) together
with the IEEE division rule `fpdiv`.  Randomness is modelled by passing
the drawn randomness (shuffled outcome lists, uniform draws) as explicit
arguments, constrained by hypotheses to what the samplers can produce.
-/

namespace RiskSim

/-! ## `src/utils/risk_simulation.py` — `TradingSimulator`

The class holds four configuration fields; `simulate_trade` applies one
compounding step, `simulate_year` folds it over a shuffled fixed-composition
outcome list, one trial per requested simulation. -/

/-- The `TradingSimulator` class: `initial_aum`, `win_rate`,
`trades_per_year`, `risk_per_trade` exactly as in `__init__`. -/
structure TradingSimulator where
  initial_aum : ℚ
  win_rate : ℚ
  trades_per_year : ℕ
  risk_per_trade : ℚ

/-- `simulate_trade`: `risk_amount = risk_per_trade * current_aum`; a win
returns `current_aum + risk_amount * return_per_unit_risk`, a loss returns
`current_aum - risk_amount`. -/
def TradingSimulator.simulate_trade (sim : TradingSimulator) (current_aum : ℚ)
    (is_win : Bool) (return_per_unit_risk : ℚ) : ℚ :=
  let risk_amount := sim.risk_per_trade * current_aum
  if is_win then current_aum + risk_amount * return_per_unit_risk
  else current_aum - risk_amount

/-- `n_wins = int(self.win_rate * self.trades_per_year)`: truncation of the
(nonnegative, per the documented `win_rate ∈ [0,1]` domain) product. -/
def TradingSimulator.nWins (sim : TradingSimulator) : ℕ :=
  (⌊sim.win_rate * (sim.trades_per_year : ℚ)⌋).toNat

/-- The fixed-composition outcome array built in `simulate_year`:
`[True] * n_wins + [False] * n_losses` with `n_losses = trades_per_year - n_wins`. -/
def TradingSimulator.baseOutcomes (sim : TradingSimulator) : List Bool :=
  List.replicate sim.nWins true ++
    List.replicate (sim.trades_per_year - sim.nWins) false

/-- The inner `for is_win in outcomes` loop of `simulate_year`, folding
`simulate_trade` from a given starting AUM over an outcome list. -/
def TradingSimulator.foldTrades (sim : TradingSimulator) (return_per_unit_risk : ℚ)
    (start : ℚ) (outcomes : List Bool) : ℚ :=
  outcomes.foldl (fun aum w => sim.simulate_trade aum w return_per_unit_risk) start

/-- One trial of `simulate_year`: fold the trades starting from `initial_aum`. -/
def TradingSimulator.runTrial (sim : TradingSimulator) (return_per_unit_risk : ℚ)
    (outcomes : List Bool) : ℚ :=
  sim.foldTrades return_per_unit_risk sim.initial_aum outcomes

/-- `simulate_year`: one final AUM per simulation.  The call of
`np.random.shuffle` is modelled by passing the shuffled outcome list of every
trial explicitly; theorems constrain each to be a permutation of
`baseOutcomes`, which is exactly what shuffling produces. -/
def TradingSimulator.simulate_year (sim : TradingSimulator)
    (return_per_unit_risk : ℚ) (shuffles : List (List Bool)) : List ℚ :=
  shuffles.map (sim.runTrial return_per_unit_risk)

/-! ## `src/utils/risk_simulation.py` — `simulate_drawdown` -/

/-- One step of the streak-counting loop in `_max_consecutive_losses`,
carrying `(max_streak, current_streak)`.  On a `0` (loss) the current streak
grows and overwrites the maximum when it exceeds it; otherwise it resets. -/
def lossStep (p : ℕ × ℕ) (trade : ℕ) : ℕ × ℕ :=
  if trade = 0 then
    let c := p.2 + 1
    (if c > p.1 then c else p.1, c)
  else (p.1, 0)

/-- `_max_consecutive_losses`: the longest run of `0` entries. -/
def max_consecutive_losses (trades : List ℕ) : ℕ :=
  (trades.foldl lossStep (0, 0)).1

/-- One draw of `np.random.choice([1, 0], p=[p_win, 1 - p_win])`, modelled by
thresholding a uniform draw `u ∈ [0, 1)`: result `1` with probability `p_win`. -/
def sampleTrade (p_win u : ℚ) : ℕ :=
  if u < p_win then 1 else 0

/-- The trade vector of one trial: `size = num_trades_per_year` draws. -/
def drawTrades (p_win : ℚ) (num_trades_per_year : ℕ) (u : ℕ → ℚ) : List ℕ :=
  (List.range num_trades_per_year).map (fun i => sampleTrade p_win (u i))

/-- The `drawdowns` list built by `simulate_drawdown`: per trial,
`_max_consecutive_losses(trades) * risk_per_trade`.  Each element of `us` is
the uniform-randomness source of one trial. -/
def trialDrawdowns (win_rate : ℚ) (num_trades_per_year : ℕ)
    (risk_per_trade : ℚ) (us : List (ℕ → ℚ)) : List ℚ :=
  us.map (fun u =>
    (max_consecutive_losses (drawTrades (win_rate / 100) num_trades_per_year u) : ℚ)
      * risk_per_trade)

/-- `simulate_drawdown`: `p_win = win_rate / 100.0`, then the mean
(`np.mean`) of the per-trial drawdowns; `simulations` is `us.length`. -/
def simulate_drawdown (win_rate : ℚ) (num_trades_per_year : ℕ)
    (risk_per_trade : ℚ) (us : List (ℕ → ℚ)) : ℚ :=
  (trialDrawdowns win_rate num_trades_per_year risk_per_trade us).sum /
    ((trialDrawdowns win_rate num_trades_per_year risk_per_trade us).length : ℚ)

/-! ### Helper lemmas for the simulator -/

/-- Folding `simulate_trade` over `n` consecutive losses multiplies the
starting AUM by `(1 - risk_per_trade)^n`. -/
lemma foldTrades_all_false (sim : TradingSimulator) (rpur : ℚ) :
    ∀ (n : ℕ) (c : ℚ),
      sim.foldTrades rpur c (List.replicate n false) =
        c * (1 - sim.risk_per_trade) ^ n := by
  intro n
  induction n with
  | zero => intro c; simp [TradingSimulator.foldTrades]
  | succ n ih =>
      intro c
      rw [List.replicate_succ]
      have h1 : sim.foldTrades rpur c (false :: List.replicate n false)
          = sim.foldTrades rpur (sim.simulate_trade c false rpur)
              (List.replicate n false) := rfl
      rw [h1, ih]
      simp only [TradingSimulator.simulate_trade, Bool.false_eq_true, if_false]
      ring

lemma lossStep_zero (m c : ℕ) : lossStep (m, c) 0 = (max m (c + 1), c + 1) := by
  have h : (if c + 1 > m then c + 1 else m) = max m (c + 1) := by
    split <;> omega
  simp [lossStep, h]

lemma lossStep_pos (m c t : ℕ) (ht : t ≠ 0) : lossStep (m, c) t = (m, 0) := by
  simp [lossStep, ht]

/-- The streak fold over all-loss input, with the loop invariant
`current_streak ≤ max_streak` on entry. -/
lemma foldl_lossStep_replicate :
    ∀ (j m c : ℕ), c ≤ m →
      (List.replicate j 0).foldl lossStep (m, c) = (max m (c + j), c + j) := by
  intro j
  induction j with
  | zero =>
      intro m c h
      simp [Nat.max_eq_left h]
  | succ j ih =>
      intro m c h
      rw [List.replicate_succ, List.foldl_cons, lossStep_zero,
        ih (max m (c + 1)) (c + 1) (le_max_right _ _)]
      refine Prod.ext ?_ (by omega)
      show max (max m (c + 1)) (c + 1 + j) = max m (c + (j + 1))
      rw [max_assoc, Nat.max_eq_right (by omega : c + 1 ≤ c + 1 + j)]
      omega

lemma max_consecutive_losses_replicate_zero (n : ℕ) :
    max_consecutive_losses (List.replicate n 0) = n := by
  unfold max_consecutive_losses
  rw [foldl_lossStep_replicate n 0 0 le_rfl]
  simp

/-- The maximum-streak counter is bounded by `max` of the entry maximum and
the remaining length. -/
lemma foldl_lossStep_le :
    ∀ (trades : List ℕ) (m c : ℕ),
      (trades.foldl lossStep (m, c)).1 ≤ max m (c + trades.length) := by
  intro trades
  induction trades with
  | nil => intro m c; simpa using le_max_left m c
  | cons t ts ih =>
      intro m c
      rw [List.foldl_cons]
      by_cases ht : t = 0
      · subst ht
        rw [lossStep_zero]
        refine (ih (max m (c + 1)) (c + 1)).trans ?_
        rw [max_assoc, Nat.max_eq_right (by omega : c + 1 ≤ c + 1 + ts.length)]
        simp [List.length_cons]
        omega
      · rw [lossStep_pos m c t ht]
        refine (ih m 0).trans ?_
        refine max_le_max le_rfl ?_
        simp [List.length_cons]
        omega

/-- No loss streak is longer than the trade list itself. -/
lemma max_consecutive_losses_le (trades : List ℕ) :
    max_consecutive_losses trades ≤ trades.length := by
  have h := foldl_lossStep_le trades 0 0
  simpa [max_consecutive_losses] using h

/-! ### Claims about the trading simulator -/

/-- C4: for every simulator with `win_rate = 0` and `trades_per_year = n`,
every element of `simulate_year(return_per_unit_risk, num_simulations)`
equals `initial_aum * (1 - risk_per_trade)^n`, for every
`return_per_unit_risk`, every number of trials, and every outcome of the
random shuffling (any permutation of the fixed-composition outcome list). -/
theorem simulate_year_zero_win_rate (sim : TradingSimulator)
    (h0 : sim.win_rate = 0) (rpur : ℚ) (shuffles : List (List Bool))
    (hsh : ∀ o ∈ shuffles, o.Perm sim.baseOutcomes) :
    ∀ x ∈ sim.simulate_year rpur shuffles,
      x = sim.initial_aum * (1 - sim.risk_per_trade) ^ sim.trades_per_year := by
  have hbase : sim.baseOutcomes = List.replicate sim.trades_per_year false := by
    unfold TradingSimulator.baseOutcomes TradingSimulator.nWins
    rw [h0]
    simp
  intro x hx
  rw [TradingSimulator.simulate_year, List.mem_map] at hx
  obtain ⟨o, ho, rfl⟩ := hx
  have hperm := hsh o ho
  rw [hbase] at hperm
  have ho_eq : o = List.replicate sim.trades_per_year false := by
    rw [List.eq_replicate_iff]
    exact ⟨hperm.length_eq.trans (List.length_replicate _ _),
      fun b hb => List.eq_of_mem_replicate (hperm.mem_iff.mp hb)⟩
  rw [TradingSimulator.runTrial, ho_eq, foldTrades_all_false]

/-- C4 witness: a concrete zero-win-rate simulator over two trades, one
simulated trial. -/
theorem simulate_year_zero_win_rate_witness :
    TradingSimulator.simulate_year ⟨100, 0, 2, 1/10⟩ 5 [[false, false]]
      = [100 * (1 - 1/10) ^ 2] := by
  have hperm : ∀ o ∈ [[false, false]],
      o.Perm (⟨100, 0, 2, 1/10⟩ : TradingSimulator).baseOutcomes := by
    intro o ho
    rw [List.mem_singleton] at ho
    subst ho
    have hb : (⟨100, 0, 2, 1/10⟩ : TradingSimulator).baseOutcomes
        = [false, false] := by
      simp [TradingSimulator.baseOutcomes, TradingSimulator.nWins,
        List.replicate]
    rw [hb]
  have h := simulate_year_zero_win_rate ⟨100, 0, 2, 1/10⟩ rfl 5
    [[false, false]] hperm
  have hx := h ((⟨100, 0, 2, 1/10⟩ : TradingSimulator).runTrial 5 [false, false])
    (by simp [TradingSimulator.simulate_year])
  simpa [TradingSimulator.simulate_year] using hx

/-- C9: `simulate_trade` is homogeneous of degree 1 in the capital argument,
and consequently the fold of `simulate_trade` over any fixed trade-outcome
sequence is proportional to the starting capital. -/
theorem simulate_trade_homogeneous (sim : TradingSimulator) (rpur lam : ℚ) :
    (∀ (c : ℚ) (w : Bool),
        sim.simulate_trade (lam * c) w rpur = lam * sim.simulate_trade c w rpur)
    ∧ ∀ (outcomes : List Bool) (c : ℚ),
        sim.foldTrades rpur (lam * c) outcomes =
          lam * sim.foldTrades rpur c outcomes := by
  have hstep : ∀ (c : ℚ) (w : Bool),
      sim.simulate_trade (lam * c) w rpur = lam * sim.simulate_trade c w rpur := by
    intro c w
    cases w <;> simp [TradingSimulator.simulate_trade] <;> ring
  refine ⟨hstep, ?_⟩
  intro outcomes
  induction outcomes with
  | nil => intro c; rfl
  | cons a l ih =>
      intro c
      have h1 : sim.foldTrades rpur (lam * c) (a :: l)
          = sim.foldTrades rpur (sim.simulate_trade (lam * c) a rpur) l := rfl
      have h2 : sim.foldTrades rpur c (a :: l)
          = sim.foldTrades rpur (sim.simulate_trade c a rpur) l := rfl
      rw [h1, h2, hstep, ih]

/-- C5: with `win_rate = 0` every drawn trade is a loss, each trial's longest
loss streak is the full year, and `simulate_drawdown 0 n r us` is exactly
`n * r`, for any positive number of trials and any uniform draws. -/
theorem simulate_drawdown_zero_win_rate (n : ℕ) (hn : 0 < n) (r : ℚ)
    (us : List (ℕ → ℚ)) (s : ℕ) (hus : us.length = s) (hs : 0 < s)
    (hu : ∀ u ∈ us, ∀ i, 0 ≤ u i) :
    simulate_drawdown 0 n r us = (n : ℚ) * r := by
  have hdraw : ∀ u ∈ us, drawTrades (0 / 100) n u = List.replicate n 0 := by
    intro u hu'
    unfold drawTrades sampleTrade
    rw [List.eq_replicate_iff]
    refine ⟨by simp, ?_⟩
    intro b hb
    rw [List.mem_map] at hb
    obtain ⟨i, _, rfl⟩ := hb
    rw [if_neg]
    rw [zero_div]
    exact not_lt.mpr (hu u hu' i)
  have htd : trialDrawdowns 0 n r us = List.replicate s ((n : ℚ) * r) := by
    unfold trialDrawdowns
    rw [List.eq_replicate_iff]
    refine ⟨by simpa using hus, ?_⟩
    intro b hb
    rw [List.mem_map] at hb
    obtain ⟨u, hu', rfl⟩ := hb
    rw [hdraw u hu', max_consecutive_losses_replicate_zero]
  unfold simulate_drawdown
  rw [htd, List.sum_replicate, List.length_replicate, nsmul_eq_mul,
    mul_div_cancel_left₀]
  exact_mod_cast hs.ne'

/-- C5 witness: two trades, risk 3, one trial with uniform draws all 0. -/
theorem simulate_drawdown_zero_win_rate_witness :
    simulate_drawdown 0 2 3 [fun _ => 0] = ((2 : ℕ) : ℚ) * 3 :=
  simulate_drawdown_zero_win_rate 2 (by decide) 3 [fun _ => 0] 1 rfl
    (by decide)
    (fun u hu i => by
      rw [List.mem_singleton] at hu
      subst hu
      exact le_rfl)

/-- C10: for every configuration and every outcome of the random draws, each
trial's loss streak is at most `n`, each trial's drawdown lies in
`[0, n * r]`, and so does the returned average. -/
theorem simulate_drawdown_bounds (win_rate : ℚ) (hw0 : 0 ≤ win_rate)
    (hw1 : win_rate ≤ 100) (n : ℕ) (hn : 0 < n) (r : ℚ) (hr : 0 ≤ r)
    (us : List (ℕ → ℚ)) (hs : 0 < us.length) :
    (∀ u ∈ us, max_consecutive_losses (drawTrades (win_rate / 100) n u) ≤ n)
    ∧ (∀ d ∈ trialDrawdowns win_rate n r us, 0 ≤ d ∧ d ≤ (n : ℚ) * r)
    ∧ 0 ≤ simulate_drawdown win_rate n r us
    ∧ simulate_drawdown win_rate n r us ≤ (n : ℚ) * r := by
  have hmcl : ∀ u : ℕ → ℚ,
      max_consecutive_losses (drawTrades (win_rate / 100) n u) ≤ n := by
    intro u
    have h := max_consecutive_losses_le (drawTrades (win_rate / 100) n u)
    simpa [drawTrades] using h
  have hd : ∀ d ∈ trialDrawdowns win_rate n r us, 0 ≤ d ∧ d ≤ (n : ℚ) * r := by
    intro d hd'
    rw [trialDrawdowns, List.mem_map] at hd'
    obtain ⟨u, _, rfl⟩ := hd'
    refine ⟨mul_nonneg (Nat.cast_nonneg _) hr, ?_⟩
    exact mul_le_mul_of_nonneg_right (by exact_mod_cast hmcl u) hr
  have hLlen : (trialDrawdowns win_rate n r us).length = us.length := by
    simp [trialDrawdowns]
  have hsum0 : 0 ≤ (trialDrawdowns win_rate n r us).sum :=
    List.sum_nonneg fun d hd' => (hd d hd').1
  have hsum1 : (trialDrawdowns win_rate n r us).sum ≤
      (trialDrawdowns win_rate n r us).length • ((n : ℚ) * r) :=
    List.sum_le_card_nsmul _ _ fun d hd' => (hd d hd').2
  have hlen_pos : (0 : ℚ) < ((trialDrawdowns win_rate n r us).length : ℚ) := by
    rw [hLlen]
    exact_mod_cast hs
  refine ⟨fun u _ => hmcl u, hd, ?_, ?_⟩
  · exact div_nonneg hsum0 hlen_pos.le
  · rw [simulate_drawdown, div_le_iff hlen_pos]
    calc (trialDrawdowns win_rate n r us).sum
        ≤ (trialDrawdowns win_rate n r us).length • ((n : ℚ) * r) := hsum1
      _ = ((trialDrawdowns win_rate n r us).length : ℚ) * ((n : ℚ) * r) :=
          nsmul_eq_mul _ _
      _ = (n : ℚ) * r * ((trialDrawdowns win_rate n r us).length : ℚ) := by ring

/-- C10 witness: win rate 50, one trade, risk 1, one trial. -/
theorem simulate_drawdown_bounds_witness :
    0 ≤ simulate_drawdown 50 1 1 ([fun _ => 0] : List (ℕ → ℚ))
    ∧ simulate_drawdown 50 1 1 ([fun _ => 0] : List (ℕ → ℚ)) ≤ ((1 : ℕ) : ℚ) * 1 :=
  (simulate_drawdown_bounds 50 (by norm_num) (by norm_num) 1 one_pos 1
    (by norm_num) [fun _ => 0] (by simp)).2.2

/-! ## `src/pages/2_asset_correlation.py` — module-level control flow

The page is a linear Streamlit script.  After reading the sidebar inputs it
executes, in order:

* lines 64–65: `if min_corr > max_corr: st.sidebar.error(...)` — an error
  message only, with no `st.stop()` and no early return;
* lines 154–171: builds the correlation matrix — for the
  `"Specify correlation range"` choice it always calls
  `generate_random_correlation_matrix(num_assets, min_corr, max_corr)` and
  then `nearest_positive_definite`.

The model records the effects the script performs, in program order. -/

/-- The two values of the `corr_type` selectbox. -/
inductive CorrType
  | single
  | range
  deriving DecidableEq

/-- The sidebar configuration relevant to the correlation branch. -/
structure PageConfig where
  num_assets : ℕ
  corr_type : CorrType
  correlation : ℚ
  min_corr : ℚ
  max_corr : ℚ

/-- Observable effects of the script prefix, in program order. -/
inductive PageEffect
  | sidebarError
  | buildUniformCorr
  | buildRandomCorr
  | repairMatrix
  deriving DecidableEq

/-- The effect trace of the script from the sidebar inputs up to and
including the correlation-matrix construction (lines 44–171): the
`min_corr > max_corr` check only emits a sidebar error message, after which
execution falls through to the matrix construction of the selected branch. -/
def correlationSetupEffects (cfg : PageConfig) : List PageEffect :=
  (if cfg.corr_type = CorrType.range ∧ cfg.min_corr > cfg.max_corr
    then [PageEffect.sidebarError] else [])
  ++ (match cfg.corr_type with
      | CorrType.single => [PageEffect.buildUniformCorr]
      | CorrType.range => [PageEffect.buildRandomCorr, PageEffect.repairMatrix])

/-- C3 counterexample evidence: with the range correlation type and
`min_corr = 1/2 > max_corr = -1/2`, the script emits the sidebar validation
error but still calls the random correlation builder (and the repair): the
configuration is not rejected before building. -/
theorem min_corr_gt_max_corr_still_builds :
    PageEffect.sidebarError ∈
      correlationSetupEffects ⟨10, CorrType.range, 2/5, 1/2, -(1/2)⟩
    ∧ PageEffect.buildRandomCorr ∈
      correlationSetupEffects ⟨10, CorrType.range, 2/5, 1/2, -(1/2)⟩ := by
  constructor <;> norm_num [correlationSetupEffects]

/-! ## `src/pages/2_asset_correlation.py` — `calculate_metrics`

Arithmetic on finite values is modelled exactly over `ℝ`; the IEEE-754
special values that the ratio computations can produce are modelled by
`FpVal` with the IEEE division rule.  `num_years`, `risk_free_rate` and the
constant `trading_days_per_year = 252` are closed over by the Python
function and passed explicitly here. -/

/-- A double value as the metric computations see it: finite, one of the
infinities, or NaN. -/
inductive FpVal
  | fin (x : ℝ)
  | pinf
  | ninf
  | nan

/-- IEEE-754 division of finite doubles: finite quotient for a nonzero
denominator, signed infinity for `±x/0` with `x ≠ 0`, NaN for `0/0`. -/
noncomputable def fpdiv (a b : ℝ) : FpVal :=
  if b = 0 then
    (if 0 < a then FpVal.pinf else if a < 0 then FpVal.ninf else FpVal.nan)
  else FpVal.fin (a / b)

/-- `.mean()` of a series. -/
noncomputable def listMean (l : List ℝ) : ℝ := l.sum / (l.length : ℝ)

/-- Running maximum with accumulator `m` (the largest value seen so far). -/
noncomputable def cummaxFrom (m : ℝ) : List ℝ → List ℝ
  | [] => [m]
  | p :: ps => m :: cummaxFrom (max m p) ps

/-- `prices.cummax()`. -/
noncomputable def cummax : List ℝ → List ℝ
  | [] => []
  | p :: ps => cummaxFrom p ps

/-- `.max()` of a (nonempty, as always used here) series. -/
noncomputable def listMax (l : List ℝ) : ℝ := l.foldl max (l.headD 0)

/-- `returns.std()` — pandas sample standard deviation (`ddof = 1`). -/
noncomputable def sampleStd (l : List ℝ) : ℝ :=
  Real.sqrt ((l.map (fun x => (x - listMean l) ^ 2)).sum / ((l.length : ℝ) - 1))

/-- `total_return = prices.iloc[-1] / prices.iloc[0] - 1`. -/
noncomputable def total_return (prices : List ℝ) : ℝ :=
  prices.getLastD 0 / prices.headD 0 - 1

/-- `annualized_return = (1 + total_return) ** (1 / num_years) - 1`. -/
noncomputable def annualized_return (prices : List ℝ) (num_years : ℕ) : ℝ :=
  (1 + total_return prices) ^ ((1 : ℝ) / (num_years : ℝ)) - 1

/-- `max_drawdown = ((prices.cummax() - prices) / prices.cummax()).max()`. -/
noncomputable def max_drawdown (prices : List ℝ) : ℝ :=
  listMax (List.zipWith (fun m p => (m - p) / m) (cummax prices) prices)

/-- `downside_returns = returns[returns < target_return]` with
`target_return = 0`. -/
noncomputable def downside_returns (returns : List ℝ) : List ℝ :=
  returns.filter (fun r => decide (r < 0))

/-- `downside_deviation = np.sqrt((downside_returns ** 2).mean()) * np.sqrt(252)`. -/
noncomputable def downside_deviation (returns : List ℝ) : ℝ :=
  Real.sqrt (listMean ((downside_returns returns).map (fun r => r ^ 2)))
    * Real.sqrt 252

/-- The record of metrics returned by `calculate_metrics` (the Python dict
keys "Total Cumulative Return" … "Calmar Ratio"). -/
structure MetricsRecord where
  total_return : ℝ
  annualized_return : ℝ
  annualized_volatility : ℝ
  max_drawdown : ℝ
  sharpe : FpVal
  sortino : FpVal
  calmar : FpVal

/-- `calculate_metrics(prices, returns)`: the sortino ratio is guarded by
`len(downside_returns) > 0` and falls back to NaN; the calmar ratio is an
unguarded division `annualized_return / max_drawdown`. -/
noncomputable def calculate_metrics (prices returns : List ℝ) (num_years : ℕ)
    (risk_free_rate : ℝ) : MetricsRecord :=
  { total_return := total_return prices
    annualized_return := annualized_return prices num_years
    annualized_volatility := sampleStd returns * Real.sqrt 252
    max_drawdown := max_drawdown prices
    sharpe := fpdiv (annualized_return prices num_years - risk_free_rate)
      (sampleStd returns * Real.sqrt 252)
    sortino := if 0 < (downside_returns returns).length
      then fpdiv (annualized_return prices num_years - risk_free_rate)
        (downside_deviation returns)
      else FpVal.nan
    calmar := fpdiv (annualized_return prices num_years) (max_drawdown prices) }

/-! ### Helper lemmas for the metrics -/

/-- On a strictly increasing series the running maximum is the series itself. -/
lemma cummaxFrom_chain :
    ∀ (ps : List ℝ) (p : ℝ), List.Chain' (· < ·) (p :: ps) →
      cummaxFrom p ps = p :: ps := by
  intro ps
  induction ps with
  | nil => intro p _; rfl
  | cons q qs ih =>
      intro p h
      obtain ⟨hpq, hq⟩ := List.chain'_cons.mp h
      rw [cummaxFrom, max_eq_right hpq.le, ih q hq]

lemma cummax_eq_self {l : List ℝ} (h : List.Chain' (· < ·) l) : cummax l = l := by
  cases l with
  | nil => rfl
  | cons p ps => exact cummaxFrom_chain ps p h

lemma zipWith_self_zero (l : List ℝ) :
    List.zipWith (fun m p => (m - p) / m) l l = List.replicate l.length 0 := by
  induction l with
  | nil => rfl
  | cons p ps ih =>
      rw [List.zipWith_cons_cons, ih, List.length_cons, List.replicate_succ]
      simp

lemma foldl_max_zero : ∀ n : ℕ, List.foldl max (0 : ℝ) (List.replicate n 0) = 0 := by
  intro n
  induction n with
  | zero => rfl
  | succ n ih => rw [List.replicate_succ, List.foldl_cons, max_self]; exact ih

lemma listMax_replicate_zero (n : ℕ) : listMax (List.replicate n 0) = 0 := by
  cases n with
  | zero => rfl
  | succ n =>
      rw [listMax, List.replicate_succ]
      simpa using foldl_max_zero n

/-! ### Claims about the metrics -/

/-- C8: `calculate_metrics` on a strictly monotonically rising (positive)
price series, with a return series containing no negative entries, yields
`max_drawdown = 0` and a sortino ratio equal to the NaN marker. -/
theorem rising_prices_metrics (prices returns : List ℝ) (hne : prices ≠ [])
    (hpos : ∀ p ∈ prices, 0 < p) (hmono : List.Chain' (· < ·) prices)
    (hret : ∀ r ∈ returns, 0 ≤ r) (num_years : ℕ) (risk_free_rate : ℝ) :
    (calculate_metrics prices returns num_years risk_free_rate).max_drawdown = 0
    ∧ (calculate_metrics prices returns num_years risk_free_rate).sortino
      = FpVal.nan := by
  constructor
  · show max_drawdown prices = 0
    rw [max_drawdown, cummax_eq_self hmono, zipWith_self_zero,
      listMax_replicate_zero]
  · have hdr : downside_returns returns = [] := by
      rw [downside_returns, List.filter_eq_nil_iff]
      intro a ha
      simp only [decide_eq_true_eq]
      exact not_lt.mpr (hret a ha)
    have hlen : ¬ 0 < (downside_returns returns).length := by
      rw [hdr]
      simp
    show (if 0 < (downside_returns returns).length
        then fpdiv (annualized_return prices num_years - risk_free_rate)
          (downside_deviation returns)
        else FpVal.nan) = FpVal.nan
    rw [if_neg hlen]

/-- C8 witness: the concrete rising series `[1, 2, 4]` with returns `[1/2]`. -/
theorem rising_prices_metrics_witness :
    (calculate_metrics [1, 2, 4] [1/2] 1 0).max_drawdown = 0
    ∧ (calculate_metrics [1, 2, 4] [1/2] 1 0).sortino = FpVal.nan :=
  rising_prices_metrics [1, 2, 4] [1/2] (by simp)
    (by
      intro p hp
      rcases List.mem_cons.mp hp with rfl | hp
      · norm_num
      rcases List.mem_cons.mp hp with rfl | hp
      · norm_num
      rcases List.mem_singleton.mp hp with rfl
      norm_num)
    (by norm_num [List.chain'_cons])
    (by
      intro r hr
      rcases List.mem_singleton.mp hr with rfl
      norm_num)
    1 0

/-- C2: on the strictly rising price series `[1, 2]` the maximum drawdown is
`0`, yet the calmar ratio computed by `calculate_metrics` is `+inf`, not the
NaN marker: the division `annualized_return / max_drawdown` is unguarded. -/
theorem calmar_not_nan_on_zero_drawdown :
    (calculate_metrics [1, 2] [1] 1 0).max_drawdown = 0
    ∧ (calculate_metrics [1, 2] [1] 1 0).calmar = FpVal.pinf
    ∧ FpVal.pinf ≠ FpVal.nan := by
  have hm : max_drawdown [(1 : ℝ), 2] = 0 := by
    rw [max_drawdown, cummax_eq_self (by norm_num [List.chain'_cons]),
      zipWith_self_zero, listMax_replicate_zero]
  have ha : annualized_return [(1 : ℝ), 2] 1 = 1 := by
    rw [annualized_return, total_return]
    norm_num [List.getLastD, Real.rpow_one]
  refine ⟨hm, ?_, fun h => nomatch h⟩
  show fpdiv (annualized_return [(1 : ℝ), 2] 1) (max_drawdown [(1 : ℝ), 2])
    = FpVal.pinf
  rw [ha, hm, fpdiv, if_pos rfl, if_pos one_pos]

/-! ## `src/pages/2_asset_correlation.py` — correlated price paths

`prices = np.exp(log_returns.cumsum()); prices *= 100;
portfolio = prices.mean(axis=1); prices["Portfolio"] = portfolio`
(lines 196–202).  The drawn log-returns matrix is the explicit input;
columns are indexed by asset number, rows by trading day. -/

/-- pandas `cumsum` of one column: entry `d` is the running sum of rows
`0..d` inclusive. -/
def cumsumAux (f : ℕ → ℝ) : ℕ → ℝ
  | 0 => f 0
  | d + 1 => cumsumAux f d + f (d + 1)

/-- One asset's price path: `np.exp(cumsum)` then `*= 100`. -/
noncomputable def assetPrice (logReturns : ℕ → ℕ → ℝ) (d a : ℕ) : ℝ :=
  Real.exp (cumsumAux (fun t => logReturns t a) d) * 100

/-- `portfolio = prices.mean(axis=1)`: the row-wise mean across the asset
columns, computed before the "Portfolio" column is appended. -/
noncomputable def portfolioSeries (logReturns : ℕ → ℕ → ℝ) (num_assets d : ℕ) : ℝ :=
  (∑ a ∈ Finset.range num_assets, assetPrice logReturns d a) / (num_assets : ℝ)

/-- The final price frame: columns `0 .. num_assets - 1` are the asset price
paths and the appended column (index `num_assets`, the label "Portfolio")
holds the portfolio series. -/
noncomputable def priceFrame (logReturns : ℕ → ℕ → ℝ) (num_assets d col : ℕ) : ℝ :=
  if col < num_assets then assetPrice logReturns d col
  else portfolioSeries logReturns num_assets d

lemma cumsumAux_eq_sum (f : ℕ → ℝ) :
    ∀ d, cumsumAux f d = ∑ t ∈ Finset.range (d + 1), f t := by
  intro d
  induction d with
  | zero => simp [cumsumAux]
  | succ d ih => rw [cumsumAux, ih, ← Finset.sum_range_succ]

/-- C7: for every matrix of drawn log-returns, every asset column of the
price frame equals `100 * exp(cumulative sum of that asset's log-returns)`
at every trading day, and the appended "Portfolio" column equals the
arithmetic mean of the asset price columns at every trading day. -/
theorem price_paths_closed_form (logReturns : ℕ → ℕ → ℝ) (num_assets d : ℕ) :
    (∀ a : Fin num_assets,
        priceFrame logReturns num_assets d a
          = 100 * Real.exp (∑ t ∈ Finset.range (d + 1), logReturns t a))
    ∧ priceFrame logReturns num_assets d num_assets
      = (∑ a ∈ Finset.range num_assets, priceFrame logReturns num_assets d a)
        / (num_assets : ℝ) := by
  constructor
  · intro a
    rw [priceFrame, if_pos a.isLt, assetPrice, cumsumAux_eq_sum]
    ring
  · rw [priceFrame, if_neg (lt_irrefl _), portfolioSeries]
    congr 1
    exact (Finset.sum_congr rfl fun a ha => by
      rw [priceFrame, if_pos (Finset.mem_range.mp ha)]).symm

/-! ## `src/pages/2_asset_correlation.py` — matrix repair

`is_positive_definite` checks `np.all(np.linalg.eigvals(matrix) > 0)`; on
the symmetric real matrices this program feeds it (every argument is
symmetrized first), all eigenvalues positive is exactly positive
definiteness, modelled by `Matrix.PosDef`.

`nearest_positive_definite(A)` computes `B = (A + A.T)/2`, the SVD-based
factor `H = Vh.T @ diag(s) @ Vh` — for the symmetric `B` this is the
symmetric polar factor, i.e. the spectral absolute value of `B` —
then `A2 = (B + H)/2`, `A3 = (A2 + A2.T)/2`, and finally a `while` loop
that adds `identity * (-min_eig * k**2 + spacing)` to `A3` until it is
positive definite.  The loop is modelled with explicit fuel (`none` models
the cut-off of a loop still running); the constant
`spacing = np.spacing(np.linalg.norm(A))` — strictly positive for every
float input — is modelled by the explicit parameter `ε`. -/

open Matrix

/-- `is_positive_definite(matrix)` on the symmetric matrices the program
passes: all eigenvalues strictly positive. -/
def is_positive_definite {n : ℕ} (A : Matrix (Fin n) (Fin n) ℝ) : Prop :=
  A.PosDef

/-- `np.min(np.real(np.linalg.eigvals(A3)))` for the (always symmetric)
loop matrix: the least eigenvalue. -/
noncomputable def minEig {n : ℕ} (A : Matrix (Fin n) (Fin n) ℝ) : ℝ :=
  if hA : A.IsHermitian then ⨅ i, hA.eigenvalues i else 0

/-- `(A + A.T) / 2`. -/
noncomputable def symmetrize {n : ℕ} (A : Matrix (Fin n) (Fin n) ℝ) :
    Matrix (Fin n) (Fin n) ℝ :=
  (2⁻¹ : ℝ) • (A + Aᵀ)

/-- `H = np.dot(Vh.T, np.dot(np.diag(s), Vh))` from `svd(B)`: for symmetric
`B` this is the spectral absolute value `Q|Λ|Qᵀ` (the unique symmetric
positive-semidefinite polar factor); the `else` branch is never reached by
the program, which always passes the symmetrized `B`. -/
noncomputable def spectralAbs {n : ℕ} (B : Matrix (Fin n) (Fin n) ℝ) :
    Matrix (Fin n) (Fin n) ℝ :=
  if hB : B.IsHermitian then
    (hB.eigenvectorUnitary : Matrix (Fin n) (Fin n) ℝ)
      * Matrix.diagonal (fun i => |hB.eigenvalues i|)
      * star (hB.eigenvectorUnitary : Matrix (Fin n) (Fin n) ℝ)
  else B

open Classical in
/-- The `while not is_positive_definite(A3)` loop with its diagonal
correction `A3 += identity * (-min_eig * k**2 + spacing)` and counter
`k += 1`, run on explicit fuel. -/
noncomputable def repairLoop {n : ℕ} (ε : ℝ) :
    ℕ → Matrix (Fin n) (Fin n) ℝ → ℕ → Option (Matrix (Fin n) (Fin n) ℝ)
  | 0, _, _ => none
  | fuel + 1, A3, k =>
      if is_positive_definite A3 then some A3
      else repairLoop ε fuel
        (A3 + ((-(minEig A3)) * (k : ℝ) ^ 2 + ε) • (1 : Matrix (Fin n) (Fin n) ℝ))
        (k + 1)

/-- `nearest_positive_definite(A)`: `B = (A + A.T)/2`; `H` from the SVD of
`B`; `A2 = (B + H)/2`; `A3 = (A2 + A2.T)/2`; then the correction loop
(whose first check is the explicit `if is_positive_definite(A3): return A3`
of the source and whose later checks are the `while` condition), starting at
`k = 1`. -/
noncomputable def nearest_positive_definite {n : ℕ} (ε : ℝ) (fuel : ℕ)
    (A : Matrix (Fin n) (Fin n) ℝ) : Option (Matrix (Fin n) (Fin n) ℝ) :=
  repairLoop ε fuel
    (symmetrize ((2⁻¹ : ℝ) • (symmetrize A + spectralAbs (symmetrize A)))) 1

/-! ### Helper lemmas for the repair -/

lemma symmetrize_isHermitian {n : ℕ} (A : Matrix (Fin n) (Fin n) ℝ) :
    (symmetrize A).IsHermitian := by
  unfold Matrix.IsHermitian
  ext i j
  simp only [symmetrize, Matrix.conjTranspose_apply, Matrix.smul_apply,
    Matrix.add_apply, Matrix.transpose_apply, star_trivial, smul_eq_mul]
  ring

lemma hermitian_transpose_eq {n : ℕ} {M : Matrix (Fin n) (Fin n) ℝ}
    (h : M.IsHermitian) : Mᵀ = M := by
  have hct : Mᴴ = Mᵀ := by
    ext i j
    simp [Matrix.conjTranspose_apply]
  rw [← hct]
  exact h

lemma symmetrize_of_hermitian {n : ℕ} {M : Matrix (Fin n) (Fin n) ℝ}
    (h : M.IsHermitian) : symmetrize M = M := by
  rw [symmetrize, hermitian_transpose_eq h, ← two_smul ℝ M, smul_smul]
  norm_num

/-- One diagonal correction with `k = 1` already makes any symmetric matrix
positive definite in exact arithmetic: the added shift lifts the least
eigenvalue to exactly `ε > 0`. -/
lemma posDef_shift {n : ℕ} {S : Matrix (Fin n) (Fin n) ℝ} (hS : S.IsHermitian)
    {ε : ℝ} (hε : 0 < ε) :
    (S + ((-(minEig S)) * ((1 : ℕ) : ℝ) ^ 2 + ε)
        • (1 : Matrix (Fin n) (Fin n) ℝ)).PosDef := by
  have hm : minEig S = ⨅ i, hS.eigenvalues i := by rw [minEig, dif_pos hS]
  have hc : (-(minEig S)) * ((1 : ℕ) : ℝ) ^ 2 + ε = (-(minEig S)) + ε := by
    push_cast
    ring
  rw [hc, add_smul, ← add_assoc]
  refine Matrix.PosDef.posSemidef_add ?_ ?_
  · -- `S - minEig S • 1` is positive semidefinite: congruence by the
    -- eigenvector unitary of the diagonal with entries `λ i - minEig S ≥ 0`.
    have hspec := hS.spectral_theorem
    rw [RCLike.ofReal_real_eq_id, Function.id_comp] at hspec
    set U : Matrix (Fin n) (Fin n) ℝ :=
      (hS.eigenvectorUnitary : Matrix (Fin n) (Fin n) ℝ) with hU
    have hUU : U * star U = 1 :=
      Matrix.mem_unitaryGroup_iff.mp hS.eigenvectorUnitary.2
    have hid : (-(minEig S)) • (1 : Matrix (Fin n) (Fin n) ℝ)
        = U * ((-(minEig S)) • 1) * star U := by
      rw [Matrix.mul_smul, mul_one, Matrix.smul_mul, hUU]
    have hsum : S + (-(minEig S)) • (1 : Matrix (Fin n) (Fin n) ℝ)
        = U * Matrix.diagonal (fun i => hS.eigenvalues i - minEig S) * star U := by
      calc S + (-(minEig S)) • (1 : Matrix (Fin n) (Fin n) ℝ)
          = U * Matrix.diagonal hS.eigenvalues * star U
            + U * ((-(minEig S)) • 1) * star U := by rw [← hspec, ← hid]
        _ = U * (Matrix.diagonal hS.eigenvalues + (-(minEig S)) • 1) * star U := by
            rw [← Matrix.add_mul, ← Matrix.mul_add]
        _ = U * Matrix.diagonal (fun i => hS.eigenvalues i - minEig S) * star U := by
            rw [Matrix.smul_one_eq_diagonal, Matrix.diagonal_add]
            simp only [← sub_eq_add_neg]
    rw [hsum, Matrix.star_eq_conjTranspose]
    refine Matrix.PosSemidef.mul_mul_conjTranspose_same ?_ U
    rw [Matrix.posSemidef_diagonal_iff]
    intro i
    rw [sub_nonneg, hm]
    exact ciInf_le (Set.Finite.bddBelow (Set.finite_range _)) i
  · rw [Matrix.smul_one_eq_diagonal]
    exact Matrix.PosDef.diagonal fun _ => hε

/-! ### Claims about the repair -/

/-- C1: in exact arithmetic the repair never loops indefinitely — for every
square input matrix and every positive spacing constant, within at most one
diagonal-correction iteration (any fuel allowing the entry check plus one
correction) it returns a positive-definite matrix. -/
theorem nearest_positive_definite_terminates {n : ℕ}
    (A : Matrix (Fin n) (Fin n) ℝ) (ε : ℝ) (hε : 0 < ε) (fuel : ℕ)
    (hfuel : 2 ≤ fuel) :
    ∃ A3, nearest_positive_definite ε fuel A = some A3
      ∧ is_positive_definite A3 := by
  obtain ⟨f, rfl⟩ : ∃ f, fuel = f + 1 + 1 := ⟨fuel - 2, by omega⟩
  rw [nearest_positive_definite]
  set S := symmetrize ((2⁻¹ : ℝ) • (symmetrize A + spectralAbs (symmetrize A)))
    with hSdef
  have hS : S.IsHermitian := symmetrize_isHermitian _
  by_cases hpd : is_positive_definite S
  · refine ⟨S, ?_, hpd⟩
    simp only [repairLoop]
    rw [if_pos hpd]
  · have hshift : is_positive_definite
        (S + ((-(minEig S)) * ((1 : ℕ) : ℝ) ^ 2 + ε)
          • (1 : Matrix (Fin n) (Fin n) ℝ)) :=
      posDef_shift hS hε
    refine ⟨S + ((-(minEig S)) * ((1 : ℕ) : ℝ) ^ 2 + ε) • 1, ?_, hshift⟩
    simp only [repairLoop]
    rw [if_neg hpd, if_pos hshift]

/-- C1 witness: the loop repairs the 1×1 matrix `[[-1]]` with spacing 1 and
fuel 2, returning a result rather than running out of iterations. -/
theorem nearest_positive_definite_terminates_witness :
    (nearest_positive_definite (1 : ℝ) 2 (!![(-1 : ℝ)])).isSome = true := by
  obtain ⟨A3, h1, -⟩ :=
    nearest_positive_definite_terminates (!![(-1 : ℝ)]) 1 one_pos 2 le_rfl
  rw [h1]
  rfl

/-- C6: the repair is idempotent on valid inputs — for every symmetric,
already positive-definite `M` it returns `M` itself (the polar factor of a
positive-definite symmetric matrix is the matrix, so `A3 = M` and the first
positive-definiteness check returns it unchanged). -/
theorem nearest_positive_definite_idempotent {n : ℕ}
    (M : Matrix (Fin n) (Fin n) ℝ) (hM : is_positive_definite M) (ε : ℝ)
    (fuel : ℕ) (hfuel : 1 ≤ fuel) :
    nearest_positive_definite ε fuel M = some M := by
  have hMh : M.IsHermitian := hM.1
  have hB : symmetrize M = M := symmetrize_of_hermitian hMh
  have habs : spectralAbs M = M := by
    rw [spectralAbs, dif_pos hMh]
    have hev : (fun i => |hMh.eigenvalues i|) = hMh.eigenvalues := by
      funext i
      exact abs_of_pos (hM.eigenvalues_pos i)
    rw [hev]
    have hspec := hMh.spectral_theorem
    rw [RCLike.ofReal_real_eq_id, Function.id_comp] at hspec
    exact hspec.symm
  have h2 : (2⁻¹ : ℝ) • (M + M) = M := by
    rw [← two_smul ℝ M, smul_smul]
    norm_num
  have hinput : symmetrize ((2⁻¹ : ℝ) • (symmetrize M + spectralAbs (symmetrize M)))
      = M := by
    rw [hB, habs, h2, hB]
  rw [nearest_positive_definite, hinput]
  obtain ⟨f, rfl⟩ : ∃ f, fuel = f + 1 := ⟨fuel - 1, by omega⟩
  simp only [repairLoop]
  rw [if_pos hM]

/-- C6 witness: the identity matrix is returned unchanged. -/
theorem nearest_positive_definite_idempotent_witness :
    nearest_positive_definite (1 : ℝ) 1 (1 : Matrix (Fin 1) (Fin 1) ℝ) = some 1 :=
  nearest_positive_definite_idempotent 1 Matrix.PosDef.one 1 1 le_rfl

end RiskSim
